import Mathlib

/-!
Verification development for the command pattern-matching engine of the
ProjectForge-Dist repository (`smsquest/combined.py`).

The engine is embedded shallowly: the context model (`_validate_context`,
`set_context`, `_match_context`), the pattern compiler (`Pattern.__init__`),
the matcher (`Pattern.word_combinations`, `Pattern.match`), the registry
(`_register`) and the dispatcher (`dispatch_command`) are translated to
executable Lean definitions; Python strings become `String` (manipulated
through their character lists), Python `None` becomes `Option`, raised
exceptions become `Except` error values, and handlers become explicit
functions from captured-argument association lists to `Except` results.
-/

/-- Separator character that defines the context hierarchy
(source: `CONTEXT_SEP = '.'`). -/
def contextSep : Char := '.'

/-- Lowercase a string character by character (models Python `str.lower()`
for the ASCII command strings the engine processes). -/
def lowerString (s : String) : String := String.mk (s.data.map Char.toLower)

/-- Helper for `splitWords`: walk the characters, accumulating the current
word (reversed) and emitting it at each whitespace run boundary. -/
def splitWordsAux : List Char → List Char → List String
  | [], [] => []
  | [], acc => [String.mk acc.reverse]
  | c :: cs, acc =>
    if c.isWhitespace then
      match acc with
      | [] => splitWordsAux cs []
      | _ :: _ => String.mk acc.reverse :: splitWordsAux cs []
    else splitWordsAux cs (c :: acc)

/-- Split a string on whitespace runs, producing only non-empty words
(models Python `str.split()` with no arguments). -/
def splitWords (s : String) : List String := splitWordsAux s.data []

/-- Join a list of strings with single spaces
(models Python `' '.join(...)`). -/
def joinSpace : List String → String
  | [] => ""
  | [w] => w
  | w :: ws => w ++ " " ++ joinSpace ws

/-- Word is entirely alphabetic (models Python `str.isalpha()` on the ASCII
words of command templates; `splitWords` only produces non-empty words). -/
def isAlphaWord (w : String) : Bool := w.data.all Char.isAlpha

/-- Word is entirely uppercase (models Python `str.isupper()` on non-empty
all-alphabetic words). -/
def isUpperWord (w : String) : Bool := w.data.all Char.isUpper

/-- Word is entirely lowercase (models Python `str.islower()` on non-empty
all-alphabetic words). -/
def isLowerWord (w : String) : Bool := w.data.all Char.isLower

/-- Check whether a character list contains two consecutive separators
(models `CONTEXT_SEP * 2 in context`). -/
def containsDoubleSep : List Char → Bool
  | [] => false
  | [_] => false
  | a :: b :: rest =>
    (a = contextSep && b = contextSep) || containsDoubleSep (b :: rest)

/-- Validate a context value, returning the list of violation descriptions,
in the order the source checks them; the source raises a `ValueError` built
from this list exactly when it is non-empty
(source: `_validate_context`). -/
def validateContext : Option String → List String
  | none => []
  | some context =>
    (if context = "" then ["be empty"] else []) ++
    (if [contextSep].isPrefixOf context.data then ["start with sep"] else []) ++
    (if [contextSep].isSuffixOf context.data then ["end with sep"] else []) ++
    (if containsDoubleSep context.data then ["contain sep sep"] else [])

/-- Set the current context: validate the new value; on any violation the
source raises and the process-wide `current_context` is left unchanged,
otherwise it is replaced.  The state is threaded explicitly: the result is
the new current context paired with the violation list
(source: `set_context`). -/
def set_context (newContext cur : Option String) :
    Option String × List String :=
  match validateContext newContext with
  | [] => (newContext, [])
  | errs => (cur, errs)

/-- Decide whether a pattern's context is within the active context
(source: `_match_context`): a command with no context always matches; a
command with a context never matches an absent active context; otherwise the
active context must start with the pattern context, followed immediately by
the end of the string or the separator. -/
def matchContext (context activeContext : Option String) : Bool :=
  match context with
  | none => true
  | some c =>
    match activeContext with
    | none => false
    | some a =>
      c.data.isPrefixOf a.data &&
        ((a.data.drop c.data.length).take 1 == [] ||
          (a.data.drop c.data.length).take 1 == [contextSep])

/-- Token of a compiled pattern: either a literal word matched verbatim, or
a named placeholder capturing one or more words
(source: plain strings and `Placeholder` objects in `Pattern.match`'s
token list). -/
inductive Tok where
  | lit (w : String)
  | ph (name : String)
deriving DecidableEq, Repr

/-- Token is a placeholder. -/
def Tok.isPh : Tok → Bool
  | .lit _ => false
  | .ph _ => true

/-- Compiled pattern (source: class `Pattern`).  `pre` is the leading run of
literal words (source field `prefix`; renamed because `prefix` is a Lean
keyword), `pattern` the remaining token sequence starting at the first
placeholder (source field `pattern`), `argnames` the placeholder names in
order of appearance, `placeholders` their number and `fixed` the number of
literal tokens of `pattern` (source: `len(self.pattern) - self.placeholders`,
which is never negative). -/
structure Pattern where
  pattern_context : Option String
  argnames : List String
  pre : List String
  pattern : List Tok
  placeholders : Nat
  fixed : Nat
deriving DecidableEq, Repr

instance : Inhabited Pattern :=
  ⟨{ pattern_context := none, argnames := [], pre := [], pattern := [],
     placeholders := 0, fixed := 0 }⟩

/-- Classify the template words in order, building the token list and the
placeholder-name list; `seen` holds the placeholder names accumulated so far
for the duplicate check.  Errors mirror the three `InvalidCommand` raises of
`Pattern.__init__`: a non-alphabetic word, a duplicated placeholder name, or
a mixed-case word. -/
def compileWords : List String → List String → Except String (List Tok × List String)
  | [], _ => .ok ([], [])
  | w :: ws, seen =>
    if ¬ isAlphaWord w then
      .error "Commands may consist of letters only."
    else if isUpperWord w then
      if seen.contains (lowerString w) then
        .error "Identifiers may only be used once"
      else do
        let (toks, args) ← compileWords ws (seen ++ [lowerString w])
        .ok (Tok.ph (lowerString w) :: toks, lowerString w :: args)
    else if isLowerWord w then do
      let (toks, args) ← compileWords ws seen
      .ok (Tok.lit w :: toks, args)
    else
      .error "Words in commands must either be in lowercase or capitals, not a mix."

/-- Compile a template string into a `Pattern`
(source: `Pattern.__init__`): validate the context, split the template into
words, classify each word, then derive the literal prefix (maximal leading
run of literal tokens), the suffix token sequence, the placeholder count and
the fixed-word count. -/
def Pattern.compile (pattern : String) (context : Option String) :
    Except String Pattern :=
  match validateContext context with
  | _ :: _ => .error "invalid context"
  | [] => do
    let (toks, argnames) ← compileWords (splitWords pattern) []
    let pre := (toks.takeWhile (fun t => ¬ t.isPh)).map
      (fun t => match t with | .lit w => w | .ph n => n)
    let pat := toks.drop pre.length
    let placeholders := toks.countP Tok.isPh
    .ok { pattern_context := context, argnames := argnames, pre := pre,
          pattern := pat, placeholders := placeholders,
          fixed := pat.length - placeholders }

/-- Specificity of a pattern's context: 0 for an absent (or falsy) context,
otherwise one more than the number of separators
(source: `Pattern.ctx_order`). -/
def Pattern.ctx_order (p : Pattern) : Nat :=
  match p.pattern_context with
  | none => 0
  | some c => if c = "" then 0 else c.data.count contextSep + 1

/-- Pattern is active: its context is within the current context
(source: `Pattern.is_active`). -/
def Pattern.is_active (p : Pattern) (cur : Option String) : Bool :=
  matchContext p.pattern_context cur

/-- Enumerate the ways to distribute `hav` words over `placeholders`
placeholders, each receiving at least one word, in the source's
decreasing-greedy order: the first placeholder is tried with its maximum
possible share first, backtracking to smaller shares and recursing on the
remaining placeholders (source: `Pattern.word_combinations`; `have` is a
Lean keyword, hence `hav`).  The source is a generator; the list collects
its yields in order.  With zero placeholders and `hav > 0` the source's
recursion does not terminate (the matcher never calls it that way, since a
non-empty suffix always starts with a placeholder); this definition returns
`[]` there. -/
def wordCombinations : Nat → Int → List (List Nat)
  | 0, hav =>
    if hav < 0 then [] else if hav = 0 then [[]] else []
  | 1, hav =>
    if hav < 1 then [] else if hav = 1 then [[1]] else [[hav.toNat]]
  | k + 2, hav =>
    if hav < (k + 2 : Int) then []
    else if hav = (k + 2 : Int) then [List.replicate (k + 2) 1]
    else
      ((List.range (hav - (k + 1)).toNat).reverse.map (fun i =>
        let tk : Nat := i + 1
        if hav ≥ (k + 2 : Int) - 1 then
          (wordCombinations (k + 1) (hav - (tk : Int))).map (fun b => tk :: b)
        else [])).flatten

/-- Walk the suffix tokens against the remaining input for one candidate
distribution (the inner `for cword in self.pattern` loop of
`Pattern.match`): a literal token must equal the next input word, a
placeholder token consumes its assigned count of words and joins them with
single spaces; `none` abandons the distribution (the source's `break` on a
literal mismatch and its `StopIteration` on an exhausted iterator both
continue with the next distribution). -/
def walkTokens : List Tok → List Nat → List String →
    Option (List (String × String))
  | [], _, _ => some []
  | .ph n :: toks, takes, inp =>
    match takes with
    | [] => none
    | t :: takes2 =>
      if inp.length < t then none
      else (walkTokens toks takes2 (inp.drop t)).map
        (fun m => (n, joinSpace (inp.take t)) :: m)
  | .lit w :: toks, takes, inp =>
    match inp with
    | [] => none
    | iw :: inp2 => if w == iw then walkTokens toks takes inp2 else none

/-- Match a list of input words against a compiled pattern
(source: `Pattern.match`; `match` is a Lean keyword): reject when the input
has fewer words than there are placeholders or its leading words differ from
the literal prefix; strip the prefix; an empty remainder matches an empty
suffix with no captures and never matches a non-empty one (and conversely);
otherwise try each word distribution in order and return the captures of the
first whose token walk succeeds.  The capture dictionary is modelled as an
association list in placeholder order. -/
def Pattern.matchWords (p : Pattern) (inputWords : List String) :
    Option (List (String × String)) :=
  if inputWords.length < p.argnames.length then none
  else if inputWords.take p.pre.length ≠ p.pre then none
  else
    let rest := inputWords.drop p.pre.length
    if rest.isEmpty && p.pattern.isEmpty then some []
    else if rest.isEmpty != p.pattern.isEmpty then none
    else
      let hav : Int := (rest.length : Int) - (p.fixed : Int)
      (wordCombinations p.placeholders hav).findSome?
        (fun combo => walkTokens p.pattern combo rest)

/-- Handler: a callable receiving the captured groups merged with the bound
extra arguments (as an association list) and either returning an optional
result or raising (modelled by `Except.error`). -/
abbrev Handler : Type := List (String × String) → Except String (Option String)

/-- Registry entry: compiled pattern, handler and bound extra arguments
(source: the `(pattern, func, kwargs)` triples of the `commands` list). -/
abbrev Entry : Type := Pattern × Handler × List (String × String)

/-- Set equality of two name lists (models Python
`set(a) == set(b)` in `_register`). -/
def setEqNames (a b : List String) : Bool :=
  a.all (fun x => b.contains x) && b.all (fun x => a.contains x)

/-- Register a handler for a command template (source: `_register`): compile
the pattern, then require the handler's declared parameter names to be, as a
set, exactly the pattern's placeholder names together with the bound
extra-argument keys; on success append the triple to the registry. -/
def register (cmds : List Entry) (command : String) (funcParams : List String)
    (func : Handler) (context : Option String)
    (kwargs : List (String × String)) : Except String (List Entry) := do
  let p ← Pattern.compile command context
  if setEqNames funcParams (p.argnames ++ kwargs.map Prod.fst) then
    .ok (cmds ++ [(p, func, kwargs)])
  else
    .error "The function has the wrong signature"

/-- Merge the bound extra arguments with the captured groups, captured
groups overriding (models `args = kwargs.copy(); args.update(matches)`:
updated keys keep their position, new keys are appended). -/
def updateArgs (base upd : List (String × String)) :
    List (String × String) :=
  base.map (fun kv =>
    match List.lookup kv.1 upd with
    | some v => (kv.1, v)
    | none => kv) ++
  upd.filter (fun kv => ¬ (base.map Prod.fst).contains kv.1)

/-- Insert an entry into a list already sorted by `ctx_order` descending,
before the first entry of strictly smaller order (together with
`sortByCtxDesc` this models Python's stable
`sort(key=lambda c: c[0].ctx_order(), reverse=True)`). -/
def insertByCtx (e : Entry) : List Entry → List Entry
  | [] => [e]
  | x :: xs =>
    if x.1.ctx_order ≤ e.1.ctx_order then e :: x :: xs
    else x :: insertByCtx e xs

/-- Stable sort of registry entries by context specificity, most deeply
nested first, preserving registration order among entries of equal
specificity. -/
def sortByCtxDesc : List Entry → List Entry
  | [] => []
  | x :: xs => insertByCtx x (sortByCtxDesc xs)

/-- Order the registry entries whose pattern is active in the current
context, most specific context first (source: the filter and sort shared by
`_available_commands` and `dispatch_command`). -/
def availableCommands (cmds : List Entry) (cur : Option String) :
    List Entry :=
  sortByCtxDesc (cmds.filter (fun c => c.1.is_active cur))

/-- Try the ordered entries in turn (the `for pattern, func, kwargs in
available_commands` loop of `dispatch_command`): on the first pattern that
matches, merge the captures into the bound arguments and invoke the handler;
a raising handler is caught and rendered as an error-result string, a `None`
result becomes `"OK"`; if no entry matches the result is `none`. -/
def tryEntries : List Entry → List String → Option String
  | [], _ => none
  | (p, func, kwargs) :: rest, ws =>
    match p.matchWords ws with
    | none => tryEntries rest ws
    | some caps =>
      let args := updateArgs kwargs caps
      match func args with
      | .ok (some r) => some r
      | .ok none => some "OK"
      | .error e => some ("Error: " ++ e)

/-- Dispatch one raw command line (source: `dispatch_command`): lowercase
and whitespace-tokenize it, filter the registry by the active context, sort
by context specificity descending, and try the entries in order.  The
dispatcher mutates no engine state: the registry and the current context are
read only, so they are plain parameters here. -/
def dispatch_command (cmds : List Entry) (cur : Option String)
    (cmd : String) : Option String :=
  tryEntries (availableCommands cmds cur) (splitWords (lowerString cmd))

/-- First entry whose pattern matches, with its merged arguments: the
selection `dispatch_command` makes before invoking the handler (a
specification-side definition used to state the fault-isolation claim). -/
def selectEntry : List Entry → List String →
    Option (Handler × List (String × String))
  | [], _ => none
  | (p, func, kwargs) :: rest, ws =>
    match p.matchWords ws with
    | none => selectEntry rest ws
    | some caps => some (func, updateArgs kwargs caps)

/-- Selected handler and arguments of a dispatched command line (a
specification-side definition). -/
def dispatchSelect (cmds : List Entry) (cur : Option String)
    (cmd : String) : Option (Handler × List (String × String)) :=
  selectEntry (availableCommands cmds cur) (splitWords (lowerString cmd))

/-- Placeholder names of a token list, in order. -/
def phNamesToks : List Tok → List String :=
  fun ts => ts.filterMap (fun t => match t with | .ph n => some n | .lit _ => none)

/-- Number of literal tokens in a token list. -/
def litCount (ts : List Tok) : Nat := ts.countP (fun t => ¬ t.isPh)

/-- Helper for `splitSpace`: split a character list at every single space. -/
def splitSpaceAux : List Char → List Char → List String
  | [], [] => []
  | [], acc => [String.mk acc.reverse]
  | c :: cs, acc =>
    if c = ' ' then
      match acc with
      | [] => splitSpaceAux cs []
      | _ :: _ => String.mk acc.reverse :: splitSpaceAux cs []
    else splitSpaceAux cs (c :: acc)

/-- Split a string at every single space character (the inverse of
`joinSpace` on space-free words; a specification-side definition used to
state the round-trip claim). -/
def splitSpace (s : String) : List String := splitSpaceAux s.data []

/-- Replay one suffix token: a literal replays as itself, a placeholder as
its captured string split on single spaces (a specification-side
definition). -/
def replayTok (m : List (String × String)) : Tok → List String
  | .lit w => [w]
  | .ph n => splitSpace ((List.lookup n m).getD "")

/-- Replay a whole pattern from a capture mapping: the literal prefix
followed by the suffix tokens with each placeholder replaced by its captured
words (a specification-side definition). -/
def replay (p : Pattern) (m : List (String × String)) : List String :=
  p.pre ++ p.pattern.flatMap (replayTok m)

/-- Compiled form of the pattern `go DIR` scoped to context `x`. -/
def pGoX : Pattern := (Pattern.compile "go DIR" (some "x")).toOption.getD default

/-- Compiled form of the unscoped pattern `go DIR`. -/
def pGoNone : Pattern := (Pattern.compile "go DIR" none).toOption.getD default

/-- Compiled form of the pattern `go DIR` scoped to context `y`. -/
def pGoY : Pattern := (Pattern.compile "go DIR" (some "y")).toOption.getD default

/-- Compiled form of the unscoped pattern `boom`. -/
def pBoom : Pattern := (Pattern.compile "boom" none).toOption.getD default

/-- Compiled form of the unscoped pattern `hello`. -/
def pHello : Pattern := (Pattern.compile "hello" none).toOption.getD default

/-- Compiled form of the unscoped pattern `take ITEM`. -/
def pTakeItem : Pattern := (Pattern.compile "take ITEM" none).toOption.getD default

/-- Compiled form of the unscoped pattern `quit`. -/
def pQuit : Pattern := (Pattern.compile "quit" none).toOption.getD default

/-- Handler that ignores its arguments and succeeds with no result. -/
def okHandler : Handler := fun _ => .ok none

/-- Handler that always raises, with the message `boom`. -/
def errHandler : Handler := fun _ => .error "boom"

/-- A successful `findSome?` comes from some list element. -/
theorem findSome?_exists {α β : Type} (f : α → Option β) :
    ∀ (l : List α) (b : β), l.findSome? f = some b → ∃ a ∈ l, f a = some b := by
  intro l
  induction l with
  | nil => intro b h; simp [List.findSome?] at h
  | cons x xs ih =>
    intro b h
    rw [List.findSome?] at h
    cases hf : f x with
    | some v => rw [hf] at h; exact ⟨x, by simp, by simp [hf, ← h]⟩
    | none => rw [hf] at h; obtain ⟨a, ha, hfa⟩ := ih b h; exact ⟨a, by simp [ha], hfa⟩

/-- Character list of a space-join: the words' characters with a single
space between consecutive words. -/
theorem joinSpace_cons_cons (w w2 : String) (t : List String) :
    joinSpace (w :: w2 :: t) = w ++ " " ++ joinSpace (w2 :: t) := rfl

/-- A space-join of a list headed by a non-empty word is non-empty. -/
theorem joinSpace_ne_empty (w : String) (t : List String) (hw : w ≠ "") :
    joinSpace (w :: t) ≠ "" := by
  cases t with
  | nil => exact hw
  | cons w2 t2 =>
    rw [joinSpace_cons_cons]
    intro h
    have hd : (w ++ " " ++ joinSpace (w2 :: t2)).data = ([] : List Char) := by
      rw [h]
    rw [String.data_append, String.data_append] at hd
    have hwd : w.data = [] := by
      cases hw2 : w.data with
      | nil => rfl
      | cons c cs => rw [hw2] at hd; simp at hd
    exact hw (by cases w; simp_all)

/-- Consuming space-free characters accumulates them. -/
theorem splitSpaceAux_no_space (wd : List Char) :
    ∀ (cs acc : List Char), (∀ c ∈ wd, c ≠ ' ') →
      splitSpaceAux (wd ++ cs) acc = splitSpaceAux cs (wd.reverse ++ acc) := by
  induction wd with
  | nil => intro cs acc _; simp
  | cons c wd2 ih =>
    intro cs acc h
    have hc : c ≠ ' ' := h c (by simp)
    have hstep : splitSpaceAux (c :: (wd2 ++ cs)) acc = splitSpaceAux (wd2 ++ cs) (c :: acc) := by
      rw [splitSpaceAux.eq_def]
      simp [if_neg hc]
    rw [List.cons_append, hstep, ih cs (c :: acc) (fun x hx => h x (by simp [hx]))]
    simp

/-- Emitting the accumulated word at the end of the input. -/
theorem splitSpaceAux_nil_acc (acc : List Char) (h : acc ≠ []) :
    splitSpaceAux [] acc = [String.mk acc.reverse] := by
  cases acc with
  | nil => exact absurd rfl h
  | cons c cs => rfl

/-- Emitting the accumulated word at a space. -/
theorem splitSpaceAux_space_emit (cs acc : List Char) (h : acc ≠ []) :
    splitSpaceAux (' ' :: cs) acc = String.mk acc.reverse :: splitSpaceAux cs [] := by
  cases acc with
  | nil => exact absurd rfl h
  | cons c cs2 => simp [splitSpaceAux]

/-- Splitting on spaces inverts joining with spaces, for a non-empty list of
non-empty space-free words. -/
theorem splitSpace_joinSpace : ∀ (ws : List String), ws ≠ [] →
    (∀ w ∈ ws, w ≠ "" ∧ ' ' ∉ w.data) → splitSpace (joinSpace ws) = ws := by
  intro ws
  induction ws with
  | nil => intro h; exact absurd rfl h
  | cons w t ih =>
    intro _ h
    obtain ⟨hw, hwsp⟩ := h w (by simp)
    have hwd : w.data ≠ [] := by
      intro hh; exact hw (by cases w; simp_all)
    have hwrev : w.data.reverse ≠ [] := by simpa using hwd
    cases t with
    | nil =>
      show splitSpaceAux (joinSpace [w]).data [] = [w]
      have hj : (joinSpace [w]).data = w.data ++ [] := by simp [joinSpace]
      rw [hj, splitSpaceAux_no_space w.data [] []
        (fun c hc => by rintro rfl; exact hwsp hc)]
      rw [List.append_nil, splitSpaceAux_nil_acc _ hwrev]
      simp
    | cons w2 t2 =>
      rw [joinSpace_cons_cons]
      show splitSpaceAux (w ++ " " ++ joinSpace (w2 :: t2)).data [] = w :: w2 :: t2
      rw [String.data_append, String.data_append]
      have hsp : (" " : String).data = [' '] := rfl
      rw [hsp]
      have hassoc : w.data ++ [' '] ++ (joinSpace (w2 :: t2)).data =
          w.data ++ (' ' :: (joinSpace (w2 :: t2)).data) := by simp
      rw [hassoc, splitSpaceAux_no_space w.data (' ' :: (joinSpace (w2 :: t2)).data) []
        (fun c hc => by rintro rfl; exact hwsp hc)]
      rw [List.append_nil, splitSpaceAux_space_emit _ _ hwrev]
      have hrest : splitSpaceAux (joinSpace (w2 :: t2)).data [] = w2 :: t2 :=
        ih (by simp) (fun x hx => h x (by simp [hx]))
      rw [hrest]
      simp

/-- Every distribution yielded by `wordCombinations k hav` has `k` entries,
each at least 1, summing to `hav`. -/
theorem wordCombinations_mem_spec : ∀ (k : Nat) (hav : Int) (c : List Nat),
    c ∈ wordCombinations k hav →
    c.length = k ∧ (∀ x ∈ c, 1 ≤ x) ∧ ((c.sum : Int) = hav) := by
  intro k
  induction k with
  | zero =>
    intro hav c hc
    simp only [wordCombinations] at hc
    split at hc
    · simp at hc
    · split at hc
      · simp only [List.mem_singleton] at hc
        subst hc
        simp_all
      · simp at hc
  | succ n ih =>
    intro hav c hc
    cases n with
    | zero =>
      simp only [wordCombinations] at hc
      split at hc
      · simp at hc
      · split at hc
        · simp only [List.mem_singleton] at hc
          subst hc
          refine ⟨by simp, by simp, by simp; omega⟩
        · simp only [List.mem_singleton] at hc
          subst hc
          refine ⟨by simp, by simp; omega, by simp; omega⟩
    | succ m =>
      simp only [wordCombinations] at hc
      split at hc
      · simp at hc
      · split at hc
        next heq =>
          simp only [List.mem_singleton] at hc
          subst hc
          refine ⟨by simp, by simp, ?_⟩
          rw [List.sum_replicate, smul_eq_mul, mul_one]
          push_cast
          omega
        next hne =>
          simp only [List.mem_flatten, List.mem_map, List.mem_reverse,
            List.mem_range] at hc
          obtain ⟨l, ⟨i, hi, hl⟩, hcl⟩ := hc
          rw [← hl] at hcl
          split at hcl
          · simp only [List.mem_map] at hcl
            obtain ⟨b, hb, hcb⟩ := hcl
            obtain ⟨hlen, hone, hsum⟩ := ih (hav - ((i : Nat) + 1 : Nat)) b hb
            subst hcb
            refine ⟨by simp [hlen], ?_, ?_⟩
            · intro x hx
              rcases List.mem_cons.mp hx with h1 | h2
              · omega
              · exact hone x h2
            · simp only [List.sum_cons]
              push_cast
              push_cast at hsum
              omega
          · simp at hcl

/-- Literal cons adds one to the literal count. -/
theorem litCount_cons_lit (w : String) (ts : List Tok) :
    litCount (Tok.lit w :: ts) = litCount ts + 1 := by
  simp [litCount, List.countP_cons, Tok.isPh]

/-- Placeholder cons leaves the literal count unchanged. -/
theorem litCount_cons_ph (n : String) (ts : List Tok) :
    litCount (Tok.ph n :: ts) = litCount ts := by
  simp [litCount, List.countP_cons, Tok.isPh]

/-- Replaying tokens ignores a capture entry whose name none of them bears. -/
theorem flatMap_replayTok_irrel (n v : String) (m : List (String × String)) :
    ∀ toks : List Tok, n ∉ phNamesToks toks →
      toks.flatMap (replayTok ((n, v) :: m)) = toks.flatMap (replayTok m) := by
  intro toks
  induction toks with
  | nil => intro _; rfl
  | cons t ts ih =>
    intro hn
    cases t with
    | lit w =>
      have hts : n ∉ phNamesToks ts := by
        simpa [phNamesToks] using hn
      simp [List.flatMap_cons, replayTok, ih hts]
    | ph n2 =>
      have hcons : phNamesToks (Tok.ph n2 :: ts) = n2 :: phNamesToks ts := by
        simp [phNamesToks]
      rw [hcons] at hn
      have hne : n2 ≠ n := fun h => hn (by simp [h])
      have hts : n ∉ phNamesToks ts := fun h => hn (by simp [h])
      have hlook : List.lookup n2 ((n, v) :: m) = List.lookup n2 m := by
        rw [List.lookup]
        have hb : (n2 == n) = false := by simpa using hne
        rw [hb]
      simp [List.flatMap_cons, replayTok, hlook, ih hts]

/-- Specification of a successful token walk: given a distribution with one
entry of at least one word per placeholder, jointly with the literal tokens
accounting for the whole remaining input, and distinct placeholder names over
non-empty space-free input words, the captures are named by the placeholders
in order, each captured string is the space-join of a consecutive non-empty
run of input words, and replaying the tokens reproduces the input exactly. -/
theorem walkTokens_spec : ∀ (toks : List Tok) (takes : List Nat)
    (inp : List String) (m : List (String × String)),
    walkTokens toks takes inp = some m →
    takes.length = (phNamesToks toks).length →
    (∀ t ∈ takes, 1 ≤ t) →
    litCount toks + takes.sum = inp.length →
    (phNamesToks toks).Nodup →
    (∀ w ∈ inp, w ≠ "" ∧ ' ' ∉ w.data) →
    m.map Prod.fst = phNamesToks toks ∧
    toks.flatMap (replayTok m) = inp ∧
    (∀ pr ∈ m, ∃ i k, 1 ≤ k ∧ i + k ≤ inp.length ∧
      pr.2 = joinSpace ((inp.drop i).take k)) := by
  intro toks
  induction toks with
  | nil =>
    intro takes inp m hw hlen hpos hsum hnd hwords
    simp only [walkTokens, Option.some.injEq] at hw
    subst hw
    have htk : takes = [] := by
      simpa [phNamesToks] using List.length_eq_zero.mp (by simpa [phNamesToks] using hlen)
    subst htk
    have : inp = [] := by
      apply List.length_eq_zero.mp
      simp [litCount] at hsum
      omega
    subst this
    exact ⟨rfl, rfl, by simp⟩
  | cons t ts ih =>
    intro takes inp m hw hlen hpos hsum hnd hwords
    cases t with
    | lit w =>
      cases inp with
      | nil => simp [walkTokens] at hw
      | cons iw inp2 =>
        simp only [walkTokens] at hw
        by_cases hbeq : w = iw
        · rw [if_pos (by simpa using hbeq)] at hw
          have hnames : phNamesToks (Tok.lit w :: ts) = phNamesToks ts := by
            simp [phNamesToks]
          rw [hnames] at hlen hnd
          have hsum2 : litCount ts + takes.sum = inp2.length := by
            rw [litCount_cons_lit, List.length_cons] at hsum
            omega
          obtain ⟨hm1, hm2, hm3⟩ := ih takes inp2 m hw hlen hpos hsum2 hnd
            (fun x hx => hwords x (by simp [hx]))
          refine ⟨by rw [hm1, hnames], ?_, ?_⟩
          · simp only [List.flatMap_cons, replayTok]
            rw [hm2, hbeq]
            rfl
          · intro pr hpr
            obtain ⟨i, k, hk, hik, hj⟩ := hm3 pr hpr
            exact ⟨i + 1, k, hk, by simp; omega, by simpa using hj⟩
        · rw [if_neg (by simpa using hbeq)] at hw
          exact absurd hw (by simp)
    | ph n =>
      cases takes with
      | nil => simp [phNamesToks] at hlen
      | cons tk takes2 =>
        simp only [walkTokens] at hw
        by_cases hlt : inp.length < tk
        · rw [if_pos hlt] at hw
          exact absurd hw (by simp)
        · rw [if_neg hlt] at hw
          cases hrec : walkTokens ts takes2 (inp.drop tk) with
          | none => rw [hrec] at hw; simp at hw
          | some m2 =>
            rw [hrec] at hw
            simp only [Option.map_some', Option.some.injEq] at hw
            subst hw
            have hnames : phNamesToks (Tok.ph n :: ts) = n :: phNamesToks ts := by
              simp [phNamesToks]
            rw [hnames] at hlen hnd
            have htkpos : 1 ≤ tk := hpos tk (by simp)
            have hlen2 : takes2.length = (phNamesToks ts).length := by
              simpa using hlen
            have hsum2 : litCount ts + takes2.sum = (inp.drop tk).length := by
              rw [litCount_cons_ph, List.sum_cons] at hsum
              rw [List.length_drop]
              omega
            have hnd2 : (phNamesToks ts).Nodup := (List.nodup_cons.mp hnd).2
            have hnmem : n ∉ phNamesToks ts := (List.nodup_cons.mp hnd).1
            obtain ⟨hm1, hm2, hm3⟩ := ih takes2 (inp.drop tk) m2 hrec hlen2
              (fun x hx => hpos x (by simp [hx])) hsum2 hnd2
              (fun x hx => hwords x (List.mem_of_mem_drop hx))
            have htake_ne : inp.take tk ≠ [] := by
              intro h
              have : (inp.take tk).length = 0 := by rw [h]; rfl
              rw [List.length_take] at this
              omega
            have hcapture : splitSpace (joinSpace (inp.take tk)) = inp.take tk :=
              splitSpace_joinSpace (inp.take tk) htake_ne
                (fun x hx => hwords x (List.mem_of_mem_take hx))
            refine ⟨by simp [hm1, hnames], ?_, ?_⟩
            · simp only [List.flatMap_cons, replayTok]
              have hlook : List.lookup n ((n, joinSpace (inp.take tk)) :: m2) =
                  some (joinSpace (inp.take tk)) := by
                simp [List.lookup]
              rw [hlook]
              simp only [Option.getD_some]
              rw [hcapture, flatMap_replayTok_irrel n _ m2 ts hnmem, hm2]
              exact List.take_append_drop tk inp
            · intro pr hpr
              rcases List.mem_cons.mp hpr with hhd | htl
              · subst hhd
                exact ⟨0, tk, htkpos, by omega, by simp⟩
              · obtain ⟨i, k, hk, hik, hj⟩ := hm3 pr htl
                refine ⟨tk + i, k, hk, ?_, ?_⟩
                · rw [List.length_drop] at hik
                  omega
                · rw [← List.drop_drop]
                  exact hj

/-- Placeholder names are as many as placeholder tokens. -/
theorem phNamesToks_length : ∀ ts : List Tok,
    (phNamesToks ts).length = ts.countP Tok.isPh := by
  intro ts
  induction ts with
  | nil => rfl
  | cons t ts ih =>
    cases t with
    | lit w => simpa [phNamesToks, List.countP_cons, Tok.isPh] using ih
    | ph n => simpa [phNamesToks, List.countP_cons, Tok.isPh] using ih

/-- The first token surviving `dropWhile` falsifies the predicate. -/
theorem dropWhile_head_not (q : Tok → Bool) : ∀ (l : List Tok) (x : Tok)
    (xs : List Tok), l.dropWhile q = x :: xs → q x = false := by
  intro l
  induction l with
  | nil => intro x xs h; simp [List.dropWhile] at h
  | cons a l2 ih =>
    intro x xs h
    cases hqa : q a
    · simp only [List.dropWhile, hqa] at h
      cases h
      exact hqa
    · simp only [List.dropWhile, hqa] at h
      exact ih x xs h

/-- Specification of the word-classification loop: on success the returned
argument names are the placeholder names of the returned tokens in order,
they avoid `seen` and repeat nothing, and every literal token is an
all-lowercase word. -/
theorem compileWords_spec : ∀ (ws seen : List String) (toks : List Tok)
    (args : List String),
    compileWords ws seen = .ok (toks, args) →
    args = phNamesToks toks ∧
    (∀ x ∈ args, x ∉ seen) ∧
    args.Nodup ∧
    (∀ w : String, Tok.lit w ∈ toks → isLowerWord w = true) := by
  intro ws
  induction ws with
  | nil =>
    intro seen toks args h
    simp only [compileWords, Except.ok.injEq, Prod.mk.injEq] at h
    obtain ⟨h1, h2⟩ := h
    subst h1; subst h2
    exact ⟨rfl, by simp, List.nodup_nil, by simp⟩
  | cons w ws ih =>
    intro seen toks args h
    rw [compileWords] at h
    split at h
    · exact absurd h (by simp)
    · split at h
      · -- uppercase word: placeholder
        split at h
        · exact absurd h (by simp)
        next hns =>
          cases hrec : compileWords ws (seen ++ [lowerString w]) with
          | error e =>
            rw [hrec] at h
            simp only [Bind.bind, Except.bind] at h
            exact absurd h (by simp)
          | ok pr =>
            obtain ⟨toks2, args2⟩ := pr
            rw [hrec] at h
            simp only [Bind.bind, Except.bind, Except.ok.injEq, Prod.mk.injEq] at h
            obtain ⟨h1, h2⟩ := h
            subst h1; subst h2
            obtain ⟨ha, hseen, hnd, hlit⟩ :=
              ih (seen ++ [lowerString w]) toks2 args2 hrec
            have hwns : lowerString w ∉ seen := by
              intro hmem
              exact hns (List.elem_eq_true_of_mem hmem)
            refine ⟨by simp [phNamesToks, ha], ?_, ?_, ?_⟩
            · intro x hx
              rcases List.mem_cons.mp hx with h1 | h2
              · subst h1; exact hwns
              · intro hmem
                exact hseen x h2 (by simp [hmem])
            · refine List.nodup_cons.mpr ⟨?_, hnd⟩
              intro hmem
              exact hseen (lowerString w) hmem (by simp)
            · intro w2 hw2
              rcases List.mem_cons.mp hw2 with h1 | h2
              · exact absurd h1 (by simp)
              · exact hlit w2 h2
      · split at h
        · -- lowercase word: literal
          next hlow =>
          cases hrec : compileWords ws seen with
          | error e =>
            rw [hrec] at h
            simp only [Bind.bind, Except.bind] at h
            exact absurd h (by simp)
          | ok pr =>
            obtain ⟨toks2, args2⟩ := pr
            rw [hrec] at h
            simp only [Bind.bind, Except.bind, Except.ok.injEq, Prod.mk.injEq] at h
            obtain ⟨h1, h2⟩ := h
            subst h1; subst h2
            obtain ⟨ha, hseen, hnd, hlit⟩ := ih seen toks2 args2 hrec
            refine ⟨by simp [phNamesToks, ha], hseen, hnd, ?_⟩
            intro w2 hw2
            rcases List.mem_cons.mp hw2 with h1 | h2
            · cases h1
              simpa using hlow
            · exact hlit w2 h2
        · exact absurd h (by simp)

/-- Token lists without placeholders contribute no placeholder names. -/
theorem phNamesToks_eq_nil (l : List Tok) (h : ∀ t ∈ l, t.isPh = false) :
    phNamesToks l = [] := by
  induction l with
  | nil => rfl
  | cons t ts ih =>
    cases t with
    | lit w => simpa [phNamesToks] using ih (fun x hx => h x (by simp [hx]))
    | ph n => simpa [Tok.isPh] using h (Tok.ph n) (by simp)

/-- Invariants established by a successful compilation: the argument names
list the suffix's placeholders in order without repetition, the stored
counts agree with the suffix, a non-empty suffix starts with a placeholder,
and every prefix word is all-lowercase. -/
theorem compile_spec (tpl : String) (ctx : Option String) (p : Pattern)
    (hc : Pattern.compile tpl ctx = .ok p) :
    p.argnames = phNamesToks p.pattern ∧
    p.argnames.Nodup ∧
    p.placeholders = p.pattern.countP Tok.isPh ∧
    p.placeholders ≤ p.pattern.length ∧
    p.fixed = p.pattern.length - p.placeholders ∧
    p.argnames.length = p.placeholders ∧
    litCount p.pattern = p.fixed ∧
    (p.pattern = [] ∨ ∃ n ts, p.pattern = Tok.ph n :: ts) ∧
    (∀ w ∈ p.pre, isLowerWord w = true) := by
  rw [Pattern.compile] at hc
  split at hc
  · exact absurd hc (by simp)
  · cases hrec : compileWords (splitWords tpl) [] with
    | error e =>
      rw [hrec] at hc
      simp only [Bind.bind, Except.bind] at hc
      exact absurd hc (by simp)
    | ok pr =>
      obtain ⟨toks, argnames⟩ := pr
      rw [hrec] at hc
      simp only [Bind.bind, Except.bind, Except.ok.injEq] at hc
      obtain ⟨ha, _, hnd, hlit⟩ := compileWords_spec (splitWords tpl) [] toks argnames hrec
      subst hc
      set q : Tok → Bool := fun t => ¬ t.isPh with hq
      have htw : ∀ t ∈ toks.takeWhile q, t.isPh = false := by
        intro t ht
        have := List.mem_takeWhile_imp ht
        rw [hq] at this
        simpa using this
      have hkey : toks.drop (toks.takeWhile q).length = toks.dropWhile q := by
        nth_rewrite 2 [← List.takeWhile_append_dropWhile q toks]
        rw [List.drop_left]
      have hsplitp : toks = toks.takeWhile q ++ toks.dropWhile q :=
        (List.takeWhile_append_dropWhile q toks).symm
      have hph : phNamesToks toks = phNamesToks (toks.dropWhile q) := by
        nth_rewrite 1 [hsplitp]
        rw [phNamesToks, List.filterMap_append]
        have : phNamesToks (toks.takeWhile q) = [] := phNamesToks_eq_nil _ htw
        rw [phNamesToks] at this
        rw [this, List.nil_append]
        rfl
      have hcount : toks.countP Tok.isPh = (toks.dropWhile q).countP Tok.isPh := by
        nth_rewrite 1 [hsplitp]
        rw [List.countP_append]
        have : (toks.takeWhile q).countP Tok.isPh = 0 := by
          rw [List.countP_eq_zero]
          intro t ht
          simp [htw t ht]
        rw [this, Nat.zero_add]
      refine ⟨?_, hnd, ?_, ?_, ?_, ?_, ?_, ?_, ?_⟩
      · simp only [List.length_map, hkey]
        rw [← hph]
        exact ha
      · simp only [List.length_map, hkey]
        exact hcount
      · simp only [List.length_map, hkey]
        rw [hcount]
        exact List.countP_le_length _
      · simp [List.length_map, hkey]
      · rw [ha, phNamesToks_length]
      · simp only [List.length_map, hkey, litCount]
        have hlen := List.length_eq_countP_add_countP Tok.isPh (toks.dropWhile q)
        rw [hcount]
        omega
      · simp only [List.length_map, hkey]
        cases hd : toks.dropWhile q with
        | nil => exact Or.inl rfl
        | cons x xs =>
          refine Or.inr ?_
          have hx := dropWhile_head_not q toks x xs hd
          cases x with
          | lit w => rw [hq] at hx; simp [Tok.isPh] at hx
          | ph n => exact ⟨n, xs, rfl⟩
      · intro w hw
        simp only [List.mem_map] at hw
        obtain ⟨t, ht, hft⟩ := hw
        have hnp := htw t ht
        cases t with
        | lit w2 =>
          have : w2 = w := by simpa using hft
          subst this
          exact hlit w2 ((List.takeWhile_sublist q).subset ht)
        | ph n => simp [Tok.isPh] at hnp

/-- Characterisation of the prefix-plus-boundary test of `_match_context`:
the scan succeeds exactly when the active string equals the context or
extends it past a separator. -/
theorem prefixSep_iff (c a : List Char) :
    (c.isPrefixOf a = true ∧
      ((a.drop c.length).take 1 = [] ∨ (a.drop c.length).take 1 = [contextSep])) ↔
    (a = c ∨ (c ++ [contextSep]) <+: a) := by
  rw [ List.isPrefixOf_iff_prefix]
  constructor
  · rintro ⟨⟨t, rfl⟩, ht⟩
    rw [List.drop_left] at ht
    cases t with
    | nil => exact Or.inl (by simp)
    | cons x xs =>
      have htake : (x :: xs).take 1 = [x] := rfl
      rw [htake] at ht
      rcases ht with h1 | h2
      · exact absurd h1 (by simp)
      · have hx : x = contextSep := by simpa using h2
        subst hx
        exact Or.inr ⟨xs, by simp⟩
  · rintro (rfl | ⟨t, rfl⟩)
    · exact ⟨⟨[], by simp⟩, Or.inl (by simp [List.drop_length])⟩
    · refine ⟨⟨[contextSep] ++ t, by simp⟩, Or.inr ?_⟩
      rw [List.append_assoc, List.drop_left]
      rfl

/-- C2: `_match_context(context, active_context)` is true iff both are
absent, or the pattern context is absent, or the active context is present
and equals the pattern context or starts with it followed immediately by
the separator; in particular it is reflexive, `x.y` is within `x.y.z`, and
neither `x.y` within `x` nor `y` within `x.y` hold. -/
theorem C2_matchContext :
    (∀ ctx act : Option String, matchContext ctx act = true ↔
      (ctx = none ∨ ∃ c a, ctx = some c ∧ act = some a ∧
        (a = c ∨ (c.data ++ [contextSep]) <+: a.data))) ∧
    (∀ a : String, matchContext (some a) (some a) = true) ∧
    matchContext (some "x.y") (some "x.y.z") = true ∧
    matchContext (some "x.y") (some "x") = false ∧
    matchContext (some "y") (some "x.y") = false := by
  refine ⟨?_, ?_, by decide, by decide, by decide⟩
  · intro ctx act
    cases ctx with
    | none => simp [matchContext]
    | some c =>
      cases act with
      | none => simp [matchContext]
      | some a =>
        constructor
        · intro h
          simp only [matchContext, Bool.and_eq_true, Bool.or_eq_true,
            beq_iff_eq] at h
          obtain ⟨h1, h2⟩ := h
          have hh := (prefixSep_iff c.data a.data).mp ⟨h1, h2⟩
          refine Or.inr ⟨c, a, rfl, rfl, ?_⟩
          rcases hh with h3 | h3
          · exact Or.inl (by cases a; cases c; exact congrArg String.mk h3)
          · exact Or.inr h3
        · intro h
          rcases h with h | ⟨c2, a2, hc2, ha2, hcase⟩
          · exact absurd h (by simp)
          · cases hc2; cases ha2
            have hh : a.data = c.data ∨ (c.data ++ [contextSep]) <+: a.data := by
              rcases hcase with h3 | h3
              · exact Or.inl (by rw [h3])
              · exact Or.inr h3
            obtain ⟨h1, h2⟩ := (prefixSep_iff c.data a.data).mpr hh
            simp only [matchContext, Bool.and_eq_true, Bool.or_eq_true,
              beq_iff_eq]
            exact ⟨h1, h2⟩
  · intro a
    have h1 : a.data.isPrefixOf a.data = true := by
      rw [ List.isPrefixOf_iff_prefix]
    simp [matchContext, h1, List.drop_length]

/-- C1: matching the compiled pattern `use ITEM on FIXTURE` against the
lowercase tokenized input `use small brass key on heavy wooden door`
enumerates the word distributions in decreasing-greedy order
`[5,1], [4,2], [3,3], [2,4], [1,5]` and returns the captures of the first
distribution whose literal walk succeeds — the split at the literal `on` —
namely `item = small brass key` and `fixture = heavy wooden door`. -/
theorem C1_use_item_on_fixture :
    wordCombinations 2 6 = [[5, 1], [4, 2], [3, 3], [2, 4], [1, 5]] ∧
    ∃ p : Pattern, Pattern.compile "use ITEM on FIXTURE" none = .ok p ∧
      p.matchWords ["use", "small", "brass", "key", "on", "heavy", "wooden", "door"] =
        some [("item", "small brass key"), ("fixture", "heavy wooden door")] := by
  refine ⟨by decide,
    (Pattern.compile "use ITEM on FIXTURE" none).toOption.getD default, rfl, by decide⟩

/-- The violation list never depends on the current context. -/
theorem set_context_snd (x cur : Option String) :
    (set_context x cur).2 = validateContext x := by
  rcases h : validateContext x with _ | ⟨e, es⟩ <;> simp [set_context, h]

/-- C7: `set_context` fails exactly on a context string that is empty,
starts or ends with the separator, or contains a doubled separator, the
violation list naming each violated invariant; on failure the active
context is unchanged, otherwise (including `None`, always valid) it is
replaced.  In particular the four contexts of the claim all fail. -/
theorem C7_set_context :
    (∀ cur : Option String, set_context none cur = (none, [])) ∧
    (∀ (s : String) (cur : Option String),
      (((set_context (some s) cur).2 ≠ []) ↔
        (s = "" ∨ [contextSep] <+: s.data ∨ [contextSep] <:+ s.data ∨
          containsDoubleSep s.data = true)) ∧
      ((set_context (some s) cur).1 =
        if validateContext (some s) = [] then some s else cur) ∧
      ("be empty" ∈ (set_context (some s) cur).2 ↔ s = "") ∧
      ("start with sep" ∈ (set_context (some s) cur).2 ↔ [contextSep] <+: s.data) ∧
      ("end with sep" ∈ (set_context (some s) cur).2 ↔ [contextSep] <:+ s.data) ∧
      ("contain sep sep" ∈ (set_context (some s) cur).2 ↔
        containsDoubleSep s.data = true)) ∧
    (∀ cur : Option String,
      ((set_context (some "") cur).1 = cur ∧ (set_context (some "") cur).2 ≠ []) ∧
      ((set_context (some ".a") cur).1 = cur ∧ (set_context (some ".a") cur).2 ≠ []) ∧
      ((set_context (some "a.") cur).1 = cur ∧ (set_context (some "a.") cur).2 ≠ []) ∧
      ((set_context (some "a..b") cur).1 = cur ∧
        (set_context (some "a..b") cur).2 ≠ [])) := by
  refine ⟨fun cur => rfl, ?_, ?_⟩
  · intro s cur
    simp only [set_context_snd]
    constructor
    · simp only [validateContext]
      split_ifs <;>
        simp_all [ List.isPrefixOf_iff_prefix, List.isSuffixOf_iff_suffix]
    constructor
    · rw [set_context]
      split
      next heq => simp [heq]
      next es heq => rw [if_neg heq]
    refine ⟨?_, ?_, ?_, ?_⟩ <;>
      · simp only [validateContext]
        split_ifs <;>
          simp_all [ List.isPrefixOf_iff_prefix, List.isSuffixOf_iff_suffix]
  · intro cur
    simp only [set_context_snd]
    refine ⟨⟨?_, by decide⟩, ⟨?_, by decide⟩, ⟨?_, by decide⟩, ⟨?_, by decide⟩⟩ <;> rfl

/-- The classification loop fails exactly when some word is non-alphabetic
or of mixed case, or a placeholder name repeats (relative to the names
already seen). -/
theorem compileWords_error_iff : ∀ (ws seen : List String), seen.Nodup →
    ((∃ e, compileWords ws seen = .error e) ↔
      ((∃ w ∈ ws, isAlphaWord w = false) ∨
       (∃ w ∈ ws, isUpperWord w = false ∧ isLowerWord w = false) ∨
       ¬ (seen ++ (ws.filter isUpperWord).map lowerString).Nodup)) := by
  intro ws
  induction ws with
  | nil =>
    intro seen hseen
    simp [compileWords, hseen]
  | cons w ws ih =>
    intro seen hseen
    rw [compileWords]
    by_cases halpha : isAlphaWord w
    · rw [if_neg (by simpa using halpha)]
      by_cases hupper : isUpperWord w
      · rw [if_pos hupper]
        by_cases hdup : seen.contains (lowerString w)
        · rw [if_pos hdup]
          constructor
          · intro _
            refine Or.inr (Or.inr ?_)
            intro hnd
            have hmem : lowerString w ∈ seen := by
              simpa [List.contains_iff_exists_mem_beq, beq_iff_eq]
                using hdup
            have : lowerString w ∈ ((w :: ws).filter isUpperWord).map lowerString := by
              simp only [List.mem_map, List.mem_filter]
              exact ⟨w, ⟨by simp, hupper⟩, rfl⟩
            exact (List.disjoint_of_nodup_append hnd) hmem this
          · intro _
            exact ⟨"Identifiers may only be used once", rfl⟩
        · rw [if_neg hdup]
          have hwns : lowerString w ∉ seen := by
            intro hmem
            exact hdup (List.elem_eq_true_of_mem hmem)
          have hnd2 : (seen ++ [lowerString w]).Nodup := by
            rw [List.nodup_append]
            exact ⟨hseen, List.nodup_singleton _, by simpa using hwns⟩
          have hiff := ih (seen ++ [lowerString w]) hnd2
          constructor
          · intro ⟨e, he⟩
            have herr : ∃ e, compileWords ws (seen ++ [lowerString w]) = .error e := by
              cases hrec : compileWords ws (seen ++ [lowerString w]) with
              | error e2 => exact ⟨e2, rfl⟩
              | ok pr =>
                rw [hrec] at he
                obtain ⟨toks2, args2⟩ := pr
                simp [Bind.bind, Except.bind] at he
            rcases hiff.mp herr with h | h | h
            · exact Or.inl (by obtain ⟨x, hx, hxx⟩ := h; exact ⟨x, by simp [hx], hxx⟩)
            · exact Or.inr (Or.inl
                (by obtain ⟨x, hx, hxx⟩ := h; exact ⟨x, by simp [hx], hxx⟩))
            · refine Or.inr (Or.inr ?_)
              intro hnd
              apply h
              have : seen ++ lowerString w ::
                  (ws.filter isUpperWord).map lowerString =
                  (seen ++ [lowerString w]) ++
                  (ws.filter isUpperWord).map lowerString := by simp
              rw [← this]
              simpa [List.filter_cons, hupper] using hnd
          · intro h
            have h2 : (∃ w2 ∈ ws, isAlphaWord w2 = false) ∨
                (∃ w2 ∈ ws, isUpperWord w2 = false ∧ isLowerWord w2 = false) ∨
                ¬ ((seen ++ [lowerString w]) ++
                  (ws.filter isUpperWord).map lowerString).Nodup := by
              rcases h with h | h | h
              · obtain ⟨x, hx, hxx⟩ := h
                rcases List.mem_cons.mp hx with rfl | hx2
                · exact absurd hxx (by simp [halpha])
                · exact Or.inl ⟨x, hx2, hxx⟩
              · obtain ⟨x, hx, hxx⟩ := h
                rcases List.mem_cons.mp hx with rfl | hx2
                · exact absurd hxx.1 (by simp [hupper])
                · exact Or.inr (Or.inl ⟨x, hx2, hxx⟩)
              · refine Or.inr (Or.inr ?_)
                intro hnd
                apply h
                have hrw : seen ++ ((w :: ws).filter isUpperWord).map lowerString =
                    (seen ++ [lowerString w]) ++
                    (ws.filter isUpperWord).map lowerString := by
                  simp [List.filter_cons, hupper]
                rw [hrw]
                exact hnd
            obtain ⟨e, he⟩ := hiff.mpr h2
            rw [he]
            exact ⟨e, by simp [Bind.bind, Except.bind]⟩
      · rw [if_neg hupper]
        by_cases hlower : isLowerWord w
        · rw [if_pos hlower]
          have hiff := ih seen hseen
          have hfw : (w :: ws).filter isUpperWord = ws.filter isUpperWord := by
            simp [List.filter_cons, hupper]
          constructor
          · intro ⟨e, he⟩
            have herr : ∃ e, compileWords ws seen = .error e := by
              cases hrec : compileWords ws seen with
              | error e2 => exact ⟨e2, rfl⟩
              | ok pr =>
                rw [hrec] at he
                obtain ⟨toks2, args2⟩ := pr
                simp [Bind.bind, Except.bind] at he
            rcases hiff.mp herr with h | h | h
            · exact Or.inl (by obtain ⟨x, hx, hxx⟩ := h; exact ⟨x, by simp [hx], hxx⟩)
            · exact Or.inr (Or.inl
                (by obtain ⟨x, hx, hxx⟩ := h; exact ⟨x, by simp [hx], hxx⟩))
            · exact Or.inr (Or.inr (by rw [hfw]; exact h))
          · intro h
            have h2 : (∃ w2 ∈ ws, isAlphaWord w2 = false) ∨
                (∃ w2 ∈ ws, isUpperWord w2 = false ∧ isLowerWord w2 = false) ∨
                ¬ (seen ++ (ws.filter isUpperWord).map lowerString).Nodup := by
              rcases h with h | h | h
              · obtain ⟨x, hx, hxx⟩ := h
                rcases List.mem_cons.mp hx with rfl | hx2
                · exact absurd hxx (by simp [halpha])
                · exact Or.inl ⟨x, hx2, hxx⟩
              · obtain ⟨x, hx, hxx⟩ := h
                rcases List.mem_cons.mp hx with rfl | hx2
                · exact absurd hxx.2 (by simp [hlower])
                · exact Or.inr (Or.inl ⟨x, hx2, hxx⟩)
              · exact Or.inr (Or.inr (by rw [← hfw]; exact h))
            obtain ⟨e, he⟩ := hiff.mpr h2
            rw [he]
            exact ⟨e, by simp [Bind.bind, Except.bind]⟩
        · rw [if_neg hlower]
          constructor
          · intro _
            exact Or.inr (Or.inl ⟨w, by simp, by simpa using hupper,
              by simpa using hlower⟩)
          · intro _
            exact ⟨"Words in commands must either be in lowercase or capitals, not a mix.",
              rfl⟩
    · rw [if_pos (by simpa using halpha)]
      constructor
      · intro _
        exact Or.inl ⟨w, by simp, by simpa using halpha⟩
      · intro _
        exact ⟨"Commands may consist of letters only.", rfl⟩

/-- C5: compiling a template (with no context) fails exactly when some
template word is non-alphabetic, some word is neither all-uppercase nor
all-lowercase, or two placeholders share a name; `take ITEM` compiles with
the single placeholder `item`, while `take Item` and `take ITEM ITEM` are
rejected. -/
theorem C5_compile_errors :
    (∀ tpl : String,
      (∃ e, Pattern.compile tpl none = .error e) ↔
        ((∃ w ∈ splitWords tpl, isAlphaWord w = false) ∨
         (∃ w ∈ splitWords tpl, isUpperWord w = false ∧ isLowerWord w = false) ∨
         ¬ (((splitWords tpl).filter isUpperWord).map lowerString).Nodup)) ∧
    (∃ p : Pattern, Pattern.compile "take ITEM" none = .ok p ∧
      p.argnames = ["item"]) ∧
    (∃ e, Pattern.compile "take Item" none = .error e) ∧
    (∃ e, Pattern.compile "take ITEM ITEM" none = .error e) := by
  refine ⟨?_, ⟨(Pattern.compile "take ITEM" none).toOption.getD default, rfl, rfl⟩,
    ⟨"Words in commands must either be in lowercase or capitals, not a mix.", rfl⟩,
    ⟨"Identifiers may only be used once", rfl⟩⟩
  intro tpl
  have hiff := compileWords_error_iff (splitWords tpl) [] List.nodup_nil
  rw [List.nil_append] at hiff
  rw [← hiff]
  rw [Pattern.compile]
  constructor
  · intro ⟨e, he⟩
    cases hrec : compileWords (splitWords tpl) [] with
    | error e2 => exact ⟨e2, rfl⟩
    | ok pr =>
      rw [show validateContext none = [] from rfl] at he
      rw [hrec] at he
      obtain ⟨toks2, args2⟩ := pr
      simp [Bind.bind, Except.bind] at he
  · intro ⟨e, he⟩
    refine ⟨e, ?_⟩
    rw [show validateContext none = [] from rfl]
    rw [he]
    simp [Bind.bind, Except.bind]

/-- Set-equality test of `_register` as a propositional biconditional. -/
theorem setEqNames_iff (a b : List String) :
    setEqNames a b = true ↔ (∀ x, x ∈ a ↔ x ∈ b) := by
  rw [setEqNames, Bool.and_eq_true, List.all_eq_true, List.all_eq_true]
  constructor
  · intro ⟨h1, h2⟩ x
    constructor
    · intro hx
      have := h1 x hx
      simpa [List.contains_iff_exists_mem_beq, beq_iff_eq] using this
    · intro hx
      have := h2 x hx
      simpa [List.contains_iff_exists_mem_beq, beq_iff_eq] using this
  · intro h
    constructor
    · intro x hx
      exact List.elem_eq_true_of_mem ((h x).mp hx)
    · intro x hx
      exact List.elem_eq_true_of_mem ((h x).mpr hx)

/-- C6: when the template compiles, registration fails exactly when the
handler's declared parameter-name set differs from the union of the
pattern's placeholder names and the bound extra-argument keys; when the
sets agree the triple is appended to the registry. -/
theorem C6_register (cmds : List Entry) (command : String)
    (funcParams : List String) (func : Handler) (context : Option String)
    (kwargs : List (String × String)) (p : Pattern)
    (hc : Pattern.compile command context = .ok p) :
    ((∃ e, register cmds command funcParams func context kwargs = .error e) ↔
      ¬ (∀ x, x ∈ funcParams ↔ (x ∈ p.argnames ∨ x ∈ kwargs.map Prod.fst))) ∧
    ((∀ x, x ∈ funcParams ↔ (x ∈ p.argnames ∨ x ∈ kwargs.map Prod.fst)) →
      register cmds command funcParams func context kwargs =
        .ok (cmds ++ [(p, func, kwargs)])) := by
  have hmem : ∀ x : String, (x ∈ p.argnames ∨ x ∈ kwargs.map Prod.fst) ↔
      x ∈ p.argnames ++ kwargs.map Prod.fst := by
    intro x
    rw [List.mem_append]
  have hreg : register cmds command funcParams func context kwargs =
      if setEqNames funcParams (p.argnames ++ kwargs.map Prod.fst) then
        .ok (cmds ++ [(p, func, kwargs)])
      else .error "The function has the wrong signature" := by
    rw [register, hc]
    simp [Bind.bind, Except.bind]
  constructor
  · rw [hreg]
    by_cases hs : setEqNames funcParams (p.argnames ++ kwargs.map Prod.fst)
    · rw [if_pos hs]
      simp only [setEqNames_iff] at hs
      constructor
      · intro ⟨e, he⟩
        exact absurd he (by simp)
      · intro hne
        exact absurd (fun x => (hs x).trans (hmem x).symm) hne
    · rw [if_neg hs]
      constructor
      · intro _
        intro hall
        exact hs ((setEqNames_iff _ _).mpr (fun x => (hall x).trans (hmem x)))
      · intro _
        exact ⟨"The function has the wrong signature", rfl⟩
  · intro hall
    rw [hreg, if_pos ((setEqNames_iff _ _).mpr
      (fun x => (hall x).trans (hmem x)))]

/-- C8: a compiled pattern with zero placeholders matches an input word list
exactly when the input equals the pattern's literal word sequence, with no
captures (the match degenerates to an equality check). -/
theorem C8_zero_placeholders (tpl : String) (ctx : Option String)
    (p : Pattern) (hc : Pattern.compile tpl ctx = .ok p)
    (h0 : p.placeholders = 0) :
    ∀ ws : List String,
      p.matchWords ws = if ws = p.pre then some [] else none := by
  obtain ⟨_, _, hcnt, _, _, hlen, _, hhead, _⟩ := compile_spec tpl ctx p hc
  have hpat : p.pattern = [] := by
    rcases hhead with h | ⟨n, ts, h⟩
    · exact h
    · exfalso
      rw [h, List.countP_cons] at hcnt
      rw [h0] at hcnt
      simp [Tok.isPh] at hcnt
  have hargs : p.argnames = [] := by
    apply List.length_eq_zero.mp
    rw [hlen, h0]
  intro ws
  rw [Pattern.matchWords, hargs, hpat]
  rw [if_neg (by simp)]
  by_cases htake : ws.take p.pre.length = p.pre
  · rw [if_neg (not_not_intro htake)]
    by_cases hdrop : ws.drop p.pre.length = []
    · have hws : ws = p.pre := by
        conv_lhs => rw [← List.take_append_drop p.pre.length ws]
        rw [htake, hdrop, List.append_nil]
      rw [if_pos hws]
      simp [hdrop]
    · have hws : ws ≠ p.pre := by
        intro h
        subst h
        exact hdrop (List.drop_length _)
      rw [if_neg hws]
      have hie : (ws.drop p.pre.length).isEmpty = false := by
        simpa [List.isEmpty_iff] using hdrop
      simp [hie]
  · rw [if_pos htake]
    have hws : ws ≠ p.pre := by
      intro h
      subst h
      exact htake (List.take_length ..)
    rw [if_neg hws]

/-- Witness for C8: the pattern `quit` matches exactly the input `quit` with
no captures, and does not match `quit now`. -/
theorem C8_witness :
    pQuit.matchWords ["quit"] = some [] ∧
    pQuit.matchWords ["quit", "now"] = none := by
  have h := C8_zero_placeholders "quit" none pQuit rfl rfl
  rw [h ["quit"], h ["quit", "now"]]
  decide

/-- C9: a compiled pattern rejects any input with fewer words than it has
placeholders, and any input whose leading words differ from the literal
prefix under the case-insensitive (lowercased) comparison. -/
theorem C9_fast_reject (tpl : String) (ctx : Option String) (p : Pattern)
    (hc : Pattern.compile tpl ctx = .ok p) (ws : List String) :
    (ws.length < p.placeholders → p.matchWords ws = none) ∧
    ((ws.take p.pre.length).map lowerString ≠ p.pre.map lowerString →
      p.matchWords ws = none) := by
  obtain ⟨_, _, _, _, _, hlen, _, _, _⟩ := compile_spec tpl ctx p hc
  constructor
  · intro hlt
    rw [Pattern.matchWords, if_pos (by rw [hlen]; exact hlt)]
  · intro hne
    have htake : ws.take p.pre.length ≠ p.pre := by
      intro h
      exact hne (by rw [h])
    rw [Pattern.matchWords]
    by_cases hlt : ws.length < p.argnames.length
    · rw [if_pos hlt]
    · rw [if_neg hlt, if_pos htake]

/-- Witness for C9: the pattern `take ITEM` rejects the empty input (fewer
words than placeholders) and the input `look x` (prefix mismatch). -/
theorem C9_witness :
    pTakeItem.matchWords [] = none ∧
    pTakeItem.matchWords ["look", "x"] = none := by
  have h1 := (C9_fast_reject "take ITEM" none pTakeItem rfl []).1
  have h2 := (C9_fast_reject "take ITEM" none pTakeItem rfl ["look", "x"]).2
  exact ⟨h1 (by decide), h2 (by decide)⟩

/-- C3: dispatch filters to commands whose context is within the active one
and tries them in descending context specificity with registration order
preserved on ties; with context `x` active and two overlapping `go DIR`
commands — one scoped to `x`, one unscoped, the unscoped registered first —
both match `go north` but the scoped one's handler is invoked, while a
command scoped to the unrelated context `y` is never considered. -/
theorem C3_specificity (f g h : Handler) :
    dispatch_command [(pGoNone, g, []), (pGoX, f, [])] (some "x") "go north" =
      (match f [("dir", "north")] with
       | .ok (some r) => some r
       | .ok none => some "OK"
       | .error e => some ("Error: " ++ e)) ∧
    pGoNone.matchWords ["go", "north"] = some [("dir", "north")] ∧
    pGoX.matchWords ["go", "north"] = some [("dir", "north")] ∧
    availableCommands [(pGoNone, g, []), (pGoX, f, [])] (some "x") =
      [(pGoX, f, []), (pGoNone, g, [])] ∧
    availableCommands [(pGoNone, g, []), (pGoNone, h, [])] (some "x") =
      [(pGoNone, g, []), (pGoNone, h, [])] ∧
    dispatch_command [(pGoY, h, [])] (some "x") "go north" = none := by
  exact ⟨rfl, rfl, rfl, rfl, rfl, rfl⟩

/-- C4: a handler exception is caught at the dispatch boundary and rendered
as an error result rather than propagated: whenever dispatch selects a
handler and that handler raises, the dispatcher returns the error-result
string; dispatch itself mutates neither the registry nor the active
context (both are read-only inputs here), so with a registry holding an
always-raising `boom` handler and any `hello` handler, dispatching `boom`
yields the error result and a subsequent dispatch of `hello` behaves
exactly as the `hello` handler prescribes. -/
theorem C4_handler_fault :
    (∀ (entries : List Entry) (ws : List String) (f : Handler)
       (args : List (String × String)) (e : String),
       selectEntry entries ws = some (f, args) → f args = .error e →
       tryEntries entries ws = some ("Error: " ++ e)) ∧
    (∀ (cmds : List Entry) (cur : Option String) (cmd : String) (f : Handler)
       (args : List (String × String)) (e : String),
       dispatchSelect cmds cur cmd = some (f, args) → f args = .error e →
       dispatch_command cmds cur cmd = some ("Error: " ++ e)) ∧
    (∀ (e : String) (g : Handler),
       dispatch_command [(pBoom, fun _ => .error e, []), (pHello, g, [])]
         none "boom" = some ("Error: " ++ e) ∧
       dispatch_command [(pBoom, fun _ => .error e, []), (pHello, g, [])]
         none "hello" =
         (match g [] with
          | .ok (some r) => some r
          | .ok none => some "OK"
          | .error e2 => some ("Error: " ++ e2))) := by
  have hsel : ∀ (entries : List Entry) (ws : List String) (f : Handler)
      (args : List (String × String)) (e : String),
      selectEntry entries ws = some (f, args) → f args = .error e →
      tryEntries entries ws = some ("Error: " ++ e) := by
    intro entries
    induction entries with
    | nil => intro ws f args e hs; simp [selectEntry] at hs
    | cons ent rest ih =>
      intro ws f args e hs hf
      obtain ⟨p, func, kwargs⟩ := ent
      rw [selectEntry] at hs
      rw [tryEntries]
      cases hm : p.matchWords ws with
      | none =>
        rw [hm] at hs
        exact ih ws f args e hs hf
      | some caps =>
        rw [hm] at hs
        simp only [Option.some.injEq, Prod.mk.injEq] at hs
        obtain ⟨hfeq, hargs⟩ := hs
        subst hfeq
        subst hargs
        simp [hf]
  refine ⟨hsel, ?_, ?_⟩
  · intro cmds cur cmd f args e hs hf
    exact hsel (availableCommands cmds cur) (splitWords (lowerString cmd))
      f args e hs hf
  · intro e g
    exact ⟨rfl, rfl⟩

/-- Counterexample to C10 as stated for arbitrary input word lists: with the
pattern `take ITEM`, the input word `a b` (a "word" containing a space) is
captured as `a b`, but replaying splits it into two words, so the replay
does not reproduce the input; and the input word `""` yields the captured
string `""`, which is not non-empty. -/
theorem C10_counterexample :
    ∃ p : Pattern, Pattern.compile "take ITEM" none = .ok p ∧
      p.matchWords ["take", "a b"] = some [("item", "a b")] ∧
      replay p [("item", "a b")] = ["take", "a", "b"] ∧
      ["take", "a", "b"] ≠ ["take", "a b"] ∧
      p.matchWords ["take", ""] = some [("item", "")] := by
  exact ⟨pTakeItem, rfl, by decide, by decide, by decide, by decide⟩

/-- C10 (amended): for every compiled pattern and every input word list
whose words are non-empty and contain no space character — as produced by
the dispatcher's whitespace tokenizer — a successful match captures, for
each placeholder, the non-empty space-join of a consecutive run of input
words, and replaying the pattern (literal prefix, then suffix tokens with
each placeholder replaced by its captured string split on single spaces)
reproduces the input word list exactly. -/
theorem C10_roundtrip (tpl : String) (ctx : Option String) (p : Pattern)
    (hc : Pattern.compile tpl ctx = .ok p) (ws : List String)
    (hw : ∀ w ∈ ws, w ≠ "" ∧ ' ' ∉ w.data) (m : List (String × String))
    (hm : p.matchWords ws = some m) :
    (∀ pr ∈ m, pr.2 ≠ "" ∧ ∃ i k, 1 ≤ k ∧ i + k ≤ ws.length ∧
      pr.2 = joinSpace ((ws.drop i).take k)) ∧
    replay p m = ws := by
  obtain ⟨ha, hnd, hcnt, hple, hfix, hlen, hlit, hhead, _⟩ :=
    compile_spec tpl ctx p hc
  rw [Pattern.matchWords] at hm
  by_cases h1 : ws.length < p.argnames.length
  · rw [if_pos h1] at hm; exact absurd hm (by simp)
  rw [if_neg h1] at hm
  by_cases h2 : ws.take p.pre.length = p.pre
  case neg => rw [if_pos h2] at hm; exact absurd hm (by simp)
  rw [if_neg (not_not_intro h2)] at hm
  dsimp only at hm
  have hwseq : ws = p.pre ++ ws.drop p.pre.length := by
    conv_lhs => rw [← List.take_append_drop p.pre.length ws]
    rw [h2]
  by_cases h3 : ((ws.drop p.pre.length).isEmpty && p.pattern.isEmpty) = true
  · rw [if_pos h3] at hm
    have hm0 : m = [] := by
      have := hm
      simp only [Option.some.injEq] at this
      exact this.symm
    subst hm0
    rw [Bool.and_eq_true] at h3
    have hre : ws.drop p.pre.length = [] := by
      simpa [List.isEmpty_iff] using h3.1
    have hpe : p.pattern = [] := by
      simpa [List.isEmpty_iff] using h3.2
    refine ⟨by simp, ?_⟩
    rw [replay, hpe]
    simp only [List.flatMap_nil, List.append_nil]
    rw [hwseq, hre, List.append_nil]
  · rw [if_neg h3] at hm
    by_cases h4 : ((ws.drop p.pre.length).isEmpty != p.pattern.isEmpty) = true
    · rw [if_pos h4] at hm; exact absurd hm (by simp)
    rw [if_neg h4] at hm
    have hboth : (ws.drop p.pre.length).isEmpty = false ∧
        p.pattern.isEmpty = false := by
      revert h3 h4
      cases (ws.drop p.pre.length).isEmpty <;> cases p.pattern.isEmpty <;> simp
    obtain ⟨c, hcmem, hcwalk⟩ := findSome?_exists _ _ m hm
    obtain ⟨hclen, hcpos, hcsum⟩ :=
      wordCombinations_mem_spec p.placeholders _ c hcmem
    have hsum : litCount p.pattern + c.sum = (ws.drop p.pre.length).length := by
      rw [hlit]
      omega
    have hlen_pre : p.pre.length ≤ ws.length := by
      have := congrArg List.length h2
      rw [List.length_take] at this
      omega
    obtain ⟨hm1, hm2, hm3⟩ := walkTokens_spec p.pattern c
      (ws.drop p.pre.length) m hcwalk
      (by rw [hclen, ← hlen, ha]) hcpos hsum
      (by rw [← ha]; exact hnd)
      (fun x hx => hw x (List.mem_of_mem_drop hx))
    refine ⟨?_, ?_⟩
    · intro pr hpr
      obtain ⟨i, k, hk, hik, hj⟩ := hm3 pr hpr
      rw [List.length_drop] at hik
      constructor
      · rw [hj]
        have hne : ((ws.drop p.pre.length).drop i).take k ≠ [] := by
          intro hnil
          have := congrArg List.length hnil
          rw [List.length_take, List.length_drop, List.length_drop] at this
          simp at this
          omega
        cases hsplit : ((ws.drop p.pre.length).drop i).take k with
        | nil => exact absurd hsplit hne
        | cons w0 t0 =>
          apply joinSpace_ne_empty
          have hmem0 : w0 ∈ ws := by
            have h01 : w0 ∈ ((ws.drop p.pre.length).drop i).take k := by
              rw [hsplit]; simp
            exact List.mem_of_mem_drop (List.mem_of_mem_drop
              (List.mem_of_mem_take h01))
          exact (hw w0 hmem0).1
      · refine ⟨p.pre.length + i, k, hk, by omega, ?_⟩
        rw [← List.drop_drop]
        exact hj
    · rw [replay, hm2]
      exact hwseq.symm

/-- Witness for C4: with a registry containing only an always-raising
handler for `boom`, dispatching `boom` yields the caught error result. -/
theorem C4_witness :
    dispatch_command [(pBoom, errHandler, [])] none "boom" =
      some ("Error: " ++ "boom") :=
  C4_handler_fault.2.1 [(pBoom, errHandler, [])] none "boom" errHandler []
    "boom" rfl rfl

/-- Witness for C6: registering `take ITEM` with a handler declaring exactly
the parameter `item` and no bound extras succeeds by appending the entry,
and does not raise. -/
theorem C6_witness :
    ((∃ e, register [] "take ITEM" ["item"] okHandler none [] = .error e) ↔
      ¬ (∀ x, x ∈ ["item"] ↔
        (x ∈ pTakeItem.argnames ∨ x ∈ ([] : List (String × String)).map Prod.fst))) ∧
    ((∀ x, x ∈ ["item"] ↔
        (x ∈ pTakeItem.argnames ∨ x ∈ ([] : List (String × String)).map Prod.fst)) →
      register [] "take ITEM" ["item"] okHandler none [] =
        .ok ([] ++ [(pTakeItem, okHandler, [])])) :=
  C6_register [] "take ITEM" ["item"] okHandler none [] pTakeItem rfl

/-- Witness for C10 (amended): matching `take ITEM` against
`take rusty old key` captures `item = rusty old key`, a non-empty space-join
of a consecutive run, and replaying reproduces the input. -/
theorem C10_witness :
    (∀ pr ∈ [("item", "rusty old key")], pr.2 ≠ "" ∧
      ∃ i k, 1 ≤ k ∧ i + k ≤ (["take", "rusty", "old", "key"] : List String).length ∧
        pr.2 = joinSpace (((["take", "rusty", "old", "key"] : List String).drop i).take k)) ∧
    replay pTakeItem [("item", "rusty old key")] =
      ["take", "rusty", "old", "key"] :=
  C10_roundtrip "take ITEM" none pTakeItem rfl
    ["take", "rusty", "old", "key"] (by decide)
    [("item", "rusty old key")] (by decide)
